import Mathlib

/-!
Verification of the pevm-opt-2 parallel transaction scheduler/executor.

The Rust sources are shallowly embedded:
* `[u8; 32]` big-endian 256-bit words become lists of naturals (`List ℕ`) with
  explicit `< 256` bounds and `% 2 ^ 256` where overflow matters;
* `AHashSet` becomes a duplicate-free list built by insert-if-absent (only
  membership is ever observed); `AHashMap` becomes an association list;
* fallible code returns `Except`/`Option`;
* the one unspecified behaviour of `AHashSet`/`AHashMap` — iteration order —
  is resolved to insertion order, and every theorem below about a function
  whose result could depend on that order is robust to the choice (noted at
  the definition).
-/

set_option maxRecDepth 8000

namespace PEVM

/-! ## 256-bit words — `src/src/types/mod.rs` (`U256(pub [u8; 32])`, big-endian)

`U256.add`, `U256.sub` and `U256.checked_add` walk the byte array from index
31 down to index 0, i.e. they process the *reversed* array front to back.  We
embed the loop as structural recursion on the reversed (least-significant
first) digit list and wrap it with `List.reverse` at the boundary. -/

/-- Value of a least-significant-first digit list in base 256. -/
def valLE : List ℕ → ℕ
  | [] => 0
  | d :: ds => d + 256 * valLE ds

/-- Value of a big-endian byte array, as the `U256` comments intend:
`Σ l[i] * 256 ^ (31 - i)` for a 32-byte array. -/
def valBE (l : List ℕ) : ℕ := valLE l.reverse

/-- The loop of `U256::add` / `U256::checked_add` (types/mod.rs:65-76, 96-111)
on least-significant-first digits: `sum = a[i] + b[i] + carry;
result[i] = sum & 0xFF; carry = sum >> 8`.  Returns the digits and the final
carry. -/
def addc : List ℕ → List ℕ → ℕ → List ℕ × ℕ
  | a :: as, b :: bs, c =>
      let s := a + b + c
      let r := addc as bs (s / 256)
      (s % 256 :: r.1, r.2)
  | _, _, c => ([], c)

/-- The loop of `U256::sub` / `U256::checked_sub` (types/mod.rs:78-94, 113-133)
on least-significant-first digits: `diff = a[i] - b[i] - borrow`; if negative
the digit is `diff + 256` and the next borrow is 1. -/
def subb : List ℕ → List ℕ → ℕ → List ℕ × ℕ
  | a :: as, b :: bs, br =>
      if a < b + br then
        let r := subb as bs 1
        ((a + 256 - (b + br)) :: r.1, r.2)
      else
        let r := subb as bs 0
        ((a - (b + br)) :: r.1, r.2)
  | _, _, br => ([], br)

/-- `U256::add` (types/mod.rs:65): wrapping byte-wise addition, final carry
discarded. -/
def u256Add (a b : List ℕ) : List ℕ := (addc a.reverse b.reverse 0).1.reverse

/-- `U256::sub` (types/mod.rs:78): wrapping byte-wise subtraction, final
borrow discarded. -/
def u256Sub (a b : List ℕ) : List ℕ := (subb a.reverse b.reverse 0).1.reverse

/-- `U256::checked_add` (types/mod.rs:96): `None` exactly when the loop ends
with a non-zero carry. -/
def u256CheckedAdd (a b : List ℕ) : Option (List ℕ) :=
  if (addc a.reverse b.reverse 0).2 > 0 then none
  else some (addc a.reverse b.reverse 0).1.reverse

/-- `U256::ZERO` (types/mod.rs:42). -/
def u256Zero : List ℕ := List.replicate 32 0

/-- `U256::from_u64` (types/mod.rs:49): big-endian, low 8 bytes hold the
value.  Used only to build concrete test vectors. -/
def u256FromU64 (v : ℕ) : List ℕ :=
  List.replicate 24 0 ++
    [v / 256 ^ 7 % 256, v / 256 ^ 6 % 256, v / 256 ^ 5 % 256, v / 256 ^ 4 % 256,
     v / 256 ^ 3 % 256, v / 256 ^ 2 % 256, v / 256 % 256, v % 256]

theorem valLE_addc (bs : List ℕ) : ∀ (as_ : List ℕ) (c : ℕ),
    as_.length = bs.length →
    valLE (addc as_ bs c).1 + 256 ^ as_.length * (addc as_ bs c).2
      = valLE as_ + valLE bs + c := by
  induction bs with
  | nil =>
      intro as_ c h
      simp only [List.length_nil, List.length_eq_zero] at h
      subst h
      simp [addc, valLE]
  | cons b bs ih =>
      intro as_ c h
      cases as_ with
      | nil => simp at h
      | cons a as =>
          simp only [List.length_cons, Nat.succ_inj] at h
          have hIH := ih as ((a + b + c) / 256) h
          simp only [addc, valLE, List.length_cons, pow_succ]
          set P := (256 : ℕ) ^ as.length with hP
          have hprod : P * 256 * (addc as bs ((a + b + c) / 256)).2
              = 256 * (P * (addc as bs ((a + b + c) / 256)).2) := by ring
          rw [hprod]
          set PK := P * (addc as bs ((a + b + c) / 256)).2 with hPK
          omega

theorem addc_length (bs : List ℕ) : ∀ (as_ : List ℕ) (c : ℕ),
    as_.length = bs.length → (addc as_ bs c).1.length = as_.length := by
  induction bs with
  | nil =>
      intro as_ c h
      simp only [List.length_nil, List.length_eq_zero] at h
      subst h
      simp [addc]
  | cons b bs ih =>
      intro as_ c h
      cases as_ with
      | nil => simp at h
      | cons a as =>
          simp only [List.length_cons, Nat.succ_inj] at h
          simp [addc, ih as _ h]

theorem addc_digits_lt (bs : List ℕ) : ∀ (as_ : List ℕ) (c : ℕ),
    ∀ d ∈ (addc as_ bs c).1, d < 256 := by
  induction bs with
  | nil =>
      intro as_ c d hd
      cases as_ <;> simp [addc] at hd
  | cons b bs ih =>
      intro as_ c d hd
      cases as_ with
      | nil => simp [addc] at hd
      | cons a as =>
          simp only [addc, List.mem_cons] at hd
          rcases hd with h | h
          · exact h ▸ Nat.mod_lt _ (by norm_num)
          · exact ih as _ d h

theorem valLE_lt (l : List ℕ) (h : ∀ d ∈ l, d < 256) :
    valLE l < 256 ^ l.length := by
  induction l with
  | nil => simp [valLE]
  | cons d ds ih =>
      have hd : d < 256 := h d (List.mem_cons_self _ _)
      have hds := ih fun x hx => h x (List.mem_cons_of_mem _ hx)
      simp only [valLE, List.length_cons, pow_succ]
      nlinarith

theorem valLE_subb (bs : List ℕ) : ∀ (as_ : List ℕ) (br : ℕ),
    as_.length = bs.length → (∀ d ∈ bs, d < 256) → br ≤ 1 →
    valLE (subb as_ bs br).1 + valLE bs + br
      = valLE as_ + 256 ^ as_.length * (subb as_ bs br).2 := by
  induction bs with
  | nil =>
      intro as_ br h _ _
      simp only [List.length_nil, List.length_eq_zero] at h
      subst h
      simp [subb, valLE]
  | cons b bs ih =>
      intro as_ br h hb hbr
      cases as_ with
      | nil => simp at h
      | cons a as =>
          simp only [List.length_cons, Nat.succ_inj] at h
          have hblt : b < 256 := hb b (List.mem_cons_self _ _)
          have hbs : ∀ d ∈ bs, d < 256 := fun x hx => hb x (List.mem_cons_of_mem _ hx)
          by_cases hc : a < b + br
          · have hIH := ih as 1 h hbs le_rfl
            simp only [subb, if_pos hc, valLE, List.length_cons, pow_succ]
            set P := (256 : ℕ) ^ as.length with hP
            have hprod : P * 256 * (subb as bs 1).2 = 256 * (P * (subb as bs 1).2) := by
              ring
            rw [hprod]
            set PB := P * (subb as bs 1).2 with hPB
            omega
          · have hIH := ih as 0 h hbs (Nat.zero_le 1)
            simp only [subb, if_neg hc, valLE, List.length_cons, pow_succ]
            set P := (256 : ℕ) ^ as.length with hP
            have hprod : P * 256 * (subb as bs 0).2 = 256 * (P * (subb as bs 0).2) := by
              ring
            rw [hprod]
            set PB := P * (subb as bs 0).2 with hPB
            omega

theorem subb_length (bs : List ℕ) : ∀ (as_ : List ℕ) (br : ℕ),
    as_.length = bs.length → (subb as_ bs br).1.length = as_.length := by
  induction bs with
  | nil =>
      intro as_ br h
      simp only [List.length_nil, List.length_eq_zero] at h
      subst h
      simp [subb]
  | cons b bs ih =>
      intro as_ br h
      cases as_ with
      | nil => simp at h
      | cons a as =>
          simp only [List.length_cons, Nat.succ_inj] at h
          by_cases hc : a < b + br <;>
            simp [subb, hc, ih as _ h]

theorem subb_borrow_le (bs : List ℕ) : ∀ (as_ : List ℕ) (br : ℕ),
    br ≤ 1 → (subb as_ bs br).2 ≤ 1 := by
  induction bs with
  | nil => intro as_ br h; cases as_ <;> simpa [subb]
  | cons b bs ih =>
      intro as_ br h
      cases as_ with
      | nil => simpa [subb]
      | cons a as =>
          by_cases hc : a < b + br
          · simpa [subb, hc] using ih as 1 le_rfl
          · simpa [subb, hc] using ih as 0 (Nat.zero_le 1)

theorem subb_digits_lt (bs : List ℕ) : ∀ (as_ : List ℕ) (br : ℕ),
    (∀ d ∈ as_, d < 256) → (∀ d ∈ bs, d < 256) → br ≤ 1 →
    ∀ d ∈ (subb as_ bs br).1, d < 256 := by
  induction bs with
  | nil =>
      intro as_ br _ _ _ d hd
      cases as_ <;> simp [subb] at hd
  | cons b bs ih =>
      intro as_ br ha hb hbr d hd
      cases as_ with
      | nil => simp [subb] at hd
      | cons a as =>
          have ha' : a < 256 := ha a (List.mem_cons_self _ _)
          have has : ∀ d ∈ as, d < 256 := fun x hx => ha x (List.mem_cons_of_mem _ hx)
          have hbs : ∀ d ∈ bs, d < 256 := fun x hx => hb x (List.mem_cons_of_mem _ hx)
          by_cases hc : a < b + br
          · simp only [subb, if_pos hc, List.mem_cons] at hd
            rcases hd with h | h
            · omega
            · exact ih as 1 has hbs le_rfl d h
          · simp only [subb, if_neg hc, List.mem_cons] at hd
            rcases hd with h | h
            · omega
            · exact ih as 0 has hbs (Nat.zero_le 1) d h

/-- `U256::add` computes the sum modulo `2 ^ 256` of the big-endian values. -/
theorem valBE_u256Add (a b : List ℕ) (ha : a.length = 32) (hb : b.length = 32)
    (hA : ∀ d ∈ a, d < 256) (hB : ∀ d ∈ b, d < 256) :
    valBE (u256Add a b) = (valBE a + valBE b) % 2 ^ 256 := by
  have hlen : a.reverse.length = b.reverse.length := by
    simp [ha, hb]
  have hid := valLE_addc b.reverse a.reverse 0 hlen
  have hdig := addc_digits_lt b.reverse a.reverse 0
  have hlt : valLE (addc a.reverse b.reverse 0).1 < 256 ^ 32 := by
    have := valLE_lt (addc a.reverse b.reverse 0).1 hdig
    rwa [addc_length b.reverse a.reverse 0 hlen, List.length_reverse, ha] at this
  have hM : (256 : ℕ) ^ 32 = 2 ^ 256 := by norm_num
  have hlt' : valLE (addc a.reverse b.reverse 0).1 < 2 ^ 256 := by
    rw [← hM]; exact hlt
  have hsum : valBE a + valBE b
      = valLE (addc a.reverse b.reverse 0).1
        + 2 ^ 256 * (addc a.reverse b.reverse 0).2 := by
    have h' := hid.symm
    rw [List.length_reverse, ha, hM] at h'
    simpa [valBE] using h'
  have hL : valBE (u256Add a b) = valLE (addc a.reverse b.reverse 0).1 := by
    simp [valBE, u256Add]
  rw [hL, hsum, Nat.add_mul_mod_self_left, Nat.mod_eq_of_lt hlt']

/-- `U256::add` returns a well-formed 32-byte array. -/
theorem u256Add_wellFormed (a b : List ℕ) (ha : a.length = 32) (hb : b.length = 32) :
    (u256Add a b).length = 32 ∧ ∀ d ∈ u256Add a b, d < 256 := by
  have hlen : a.reverse.length = b.reverse.length := by simp [ha, hb]
  constructor
  · rw [u256Add, List.length_reverse, addc_length b.reverse a.reverse 0 hlen,
      List.length_reverse, ha]
  · intro d hd
    rw [u256Add, List.mem_reverse] at hd
    exact addc_digits_lt b.reverse a.reverse 0 d hd

/-- `U256::sub` computes the difference modulo `2 ^ 256` of the big-endian
values (stated over `ℤ`). -/
theorem valBE_u256Sub (a b : List ℕ) (ha : a.length = 32) (hb : b.length = 32)
    (hA : ∀ d ∈ a, d < 256) (hB : ∀ d ∈ b, d < 256) :
    (valBE (u256Sub a b) : ℤ) = ((valBE a : ℤ) - (valBE b : ℤ)) % 2 ^ 256 := by
  have hlen : a.reverse.length = b.reverse.length := by simp [ha, hb]
  have hBr : ∀ d ∈ b.reverse, d < 256 := fun d hd => hB d (List.mem_reverse.mp hd)
  have hAr : ∀ d ∈ a.reverse, d < 256 := fun d hd => hA d (List.mem_reverse.mp hd)
  have hid := valLE_subb b.reverse a.reverse 0 hlen hBr (Nat.zero_le 1)
  have hlt : valLE (subb a.reverse b.reverse 0).1 < 256 ^ 32 := by
    have := valLE_lt (subb a.reverse b.reverse 0).1
      (subb_digits_lt b.reverse a.reverse 0 hAr hBr (Nat.zero_le 1))
    rwa [subb_length b.reverse a.reverse 0 hlen, List.length_reverse, ha] at this
  have hM : (256 : ℕ) ^ 32 = 2 ^ 256 := by norm_num
  have hN : valLE (subb a.reverse b.reverse 0).1 + valBE b
      = valBE a + 2 ^ 256 * (subb a.reverse b.reverse 0).2 := by
    have h' := hid
    rw [List.length_reverse, ha, hM] at h'
    simpa [valBE] using h'
  have hidZ : (valBE a : ℤ) - (valBE b : ℤ)
      = (valLE (subb a.reverse b.reverse 0).1 : ℤ)
        + (2 : ℤ) ^ 256 * (-((subb a.reverse b.reverse 0).2 : ℤ)) := by
    have h' := congrArg (Nat.cast : ℕ → ℤ) hN
    push_cast at h'
    linarith
  have hltZ : (valLE (subb a.reverse b.reverse 0).1 : ℤ) < 2 ^ 256 := by
    have h' : valLE (subb a.reverse b.reverse 0).1 < 2 ^ 256 := by
      rw [← hM]; exact hlt
    exact_mod_cast h'
  have hL : (valBE (u256Sub a b) : ℤ) = (valLE (subb a.reverse b.reverse 0).1 : ℤ) := by
    simp [valBE, u256Sub]
  rw [hL, hidZ, Int.add_mul_emod_self_left]
  exact (Int.emod_eq_of_lt (by positivity) hltZ).symm

/-- `U256::checked_add` returns `Some` of the exact sum precisely when it does
not overflow. -/
theorem u256CheckedAdd_spec (a b : List ℕ) (ha : a.length = 32) (hb : b.length = 32)
    (hA : ∀ d ∈ a, d < 256) (hB : ∀ d ∈ b, d < 256) :
    u256CheckedAdd a b
      = if valBE a + valBE b < 2 ^ 256 then some (u256Add a b) else none := by
  have hlen : a.reverse.length = b.reverse.length := by simp [ha, hb]
  have hid := valLE_addc b.reverse a.reverse 0 hlen
  have hlt : valLE (addc a.reverse b.reverse 0).1 < 256 ^ 32 := by
    have := valLE_lt (addc a.reverse b.reverse 0).1 (addc_digits_lt b.reverse a.reverse 0)
    rwa [addc_length b.reverse a.reverse 0 hlen, List.length_reverse, ha] at this
  have hM : (256 : ℕ) ^ 32 = 2 ^ 256 := by norm_num
  have hlt' : valLE (addc a.reverse b.reverse 0).1 < 2 ^ 256 := by
    rw [← hM]; exact hlt
  have hsum : valBE a + valBE b
      = valLE (addc a.reverse b.reverse 0).1
        + 2 ^ 256 * (addc a.reverse b.reverse 0).2 := by
    have h' := hid.symm
    rw [List.length_reverse, ha, hM] at h'
    simpa [valBE] using h'
  by_cases hc : (addc a.reverse b.reverse 0).2 > 0
  · have hge : ¬ (valBE a + valBE b < 2 ^ 256) := by
      push_neg
      rw [hsum]
      calc (2 : ℕ) ^ 256 ≤ 2 ^ 256 * (addc a.reverse b.reverse 0).2 :=
            Nat.le_mul_of_pos_right _ hc
        _ ≤ _ := Nat.le_add_left _ _
    rw [u256CheckedAdd, if_pos hc, if_neg hge]
  · have hltsum : valBE a + valBE b < 2 ^ 256 := by
      rw [hsum, Nat.eq_zero_of_not_pos hc]
      simpa using hlt'
    rw [u256CheckedAdd, if_neg hc, if_pos hltsum, u256Add]

/-! ## Core data model — `src/src/types/mod.rs`

`Key` is a pair of byte arrays (20-byte address, 32-byte slot), used by the
core only through equality; we model the arrays as `List ℕ`.  `AHashSet` is
modeled as a duplicate-free list grown by insert-if-absent, `AHashMap` as an
association list updated by erase-then-prepend. -/

/-- `Key` (types/mod.rs:7): `(address: [u8; 20], slot: [u8; 32])`, equality by
bytes. -/
structure Key where
  address : List ℕ
  slot : List ℕ
deriving DecidableEq, Repr

/-- `AHashSet::insert`: sets are duplicate-free lists, insertion order kept. -/
def insertKey (k : Key) (l : List Key) : List Key :=
  if k ∈ l then l else l ++ [k]

/-- `AHashSet::is_disjoint` on key sets. -/
def keysDisjoint (a b : List Key) : Bool :=
  a.all fun k => decide (k ∉ b)

/-- `AccessSets` (types/mod.rs:195): the `reads` and `writes` key sets. -/
structure AccessSets where
  reads : List Key
  writes : List Key
deriving DecidableEq, Repr

/-- `AccessSets::new` (types/mod.rs:236). -/
def AccessSets.empty : AccessSets := ⟨[], []⟩

/-- `AccessSets::add_read` (types/mod.rs:247). -/
def AccessSets.addRead (s : AccessSets) (k : Key) : AccessSets :=
  { s with reads := insertKey k s.reads }

/-- `AccessSets::add_write` (types/mod.rs:251). -/
def AccessSets.addWrite (s : AccessSets) (k : Key) : AccessSets :=
  { s with writes := insertKey k s.writes }

/-- `AccessSets::has_conflict_with` (types/mod.rs:262): any WW, WR or RW
overlap. -/
def AccessSets.hasConflictWith (s o : AccessSets) : Bool :=
  !keysDisjoint s.writes o.writes ||
  !keysDisjoint s.writes o.reads ||
  !keysDisjoint s.reads o.writes

/-- `MicroOp` (types/mod.rs:144): the toy EVM's micro-operations.  A value is
a 32-byte word (`List ℕ`), `Keccak` carries raw bytes. -/
inductive MicroOp where
  | sload : Key → MicroOp
  | sstore : Key → List ℕ → MicroOp
  | add : List ℕ → MicroOp
  | sub : List ℕ → MicroOp
  | keccak : List ℕ → MicroOp
  | noop : MicroOp
deriving DecidableEq, Repr

/-- `TransactionMetadata` (types/mod.rs:165). -/
structure TransactionMetadata where
  program : List MicroOp
  accessList : List Key
  blobSize : ℕ
  nonce : ℕ
  sender : List ℕ
deriving DecidableEq, Repr

/-- `Transaction` (types/mod.rs:155). -/
structure Transaction where
  id : ℕ
  reads : List Key
  writes : List Key
  gasHint : ℕ
  metadata : TransactionMetadata
deriving DecidableEq, Repr

/-- `Block` (types/mod.rs:175). -/
structure Block where
  number : ℕ
  timestamp : ℕ
  transactions : List Transaction
  parentHash : List ℕ
deriving DecidableEq, Repr

/-- `ExecutionResult` (types/mod.rs:282). -/
structure ExecutionResult where
  txId : ℕ
  success : Bool
  gasUsed : ℕ
  accessSets : AccessSets
  warmKeys : List Key
  coldKeys : List Key
  reverted : Bool
  error : Option String
deriving DecidableEq, Repr

/-- `ExecutionResult::success` (types/mod.rs:294). -/
def ExecutionResult.mkSuccess (txId gasUsed : ℕ) (accessSets : AccessSets)
    (warmKeys coldKeys : List Key) : ExecutionResult :=
  ⟨txId, true, gasUsed, accessSets, warmKeys, coldKeys, false, none⟩

/-- `ExecutionResult::failure` (types/mod.rs:313). -/
def ExecutionResult.mkFailure (txId : ℕ) (e : String) : ExecutionResult :=
  ⟨txId, false, 0, AccessSets.empty, [], [], true, some e⟩

/-! ## Storage — `src/src/storage/mod.rs` and `src/src/storage/memory.rs`

The logical content of one `AHashMap<Key, U256>` is an association list; the
committed entry for a key is the first binding. -/

/-- The map inside a `MemoryStore`. -/
abbrev Store : Type := List (Key × List ℕ)

/-- `KVStore::get` via `MemoryStore::get` (storage/memory.rs:48): zero
default for absent keys. -/
def storeGet (s : Store) (k : Key) : List ℕ :=
  match s.find? (fun p => p.1 = k) with
  | some p => p.2
  | none => u256Zero

/-- `KVStore::set` via `MemoryStore::set` (storage/memory.rs:57):
`HashMap::insert` overwrite. -/
def storeSet (s : Store) (k : Key) (v : List ℕ) : Store :=
  (k, v) :: List.filter (fun p => decide (p.1 ≠ k)) s

/-- `MemoryStore` (storage/memory.rs:8) is `inner: Arc<Mutex<AHashMap<..>>>`:
a *handle* (the Arc pointer) onto a heap cell holding the map.  We model the
heap of allocated cells explicitly so that the sharing behaviour of
`#[derive(Clone)]` is visible. -/
structure MemoryStore where
  ref : ℕ
deriving DecidableEq, Repr

/-- The heap of `Arc<Mutex<AHashMap<Key, U256>>>` allocations. -/
abbrev MemHeap : Type := List Store

/-- `MemoryStore::new` (storage/memory.rs:13): allocate a fresh empty map. -/
def memNew (h : MemHeap) : MemHeap × MemoryStore :=
  (h ++ [([] : Store)], ⟨h.length⟩)

/-- `MemoryStore`'s `#[derive(Clone)]` (storage/memory.rs:7): cloning the
struct clones the `Arc`, i.e. copies the *pointer* — the clone refers to the
same heap cell. -/
def memClone (s : MemoryStore) : MemoryStore := s

/-- `MemoryStore::get` through a handle. -/
def memGet (h : MemHeap) (s : MemoryStore) (k : Key) : List ℕ :=
  storeGet (h.getD s.ref ([] : Store)) k

/-- `MemoryStore::set` through a handle: mutates the shared heap cell. -/
def memSet (h : MemHeap) (s : MemoryStore) (k : Key) (v : List ℕ) : MemHeap :=
  h.set s.ref (storeSet (h.getD s.ref ([] : Store)) k v)

/-! ## Gas — `src/src/evm/gas.rs` -/

def COLD_SLOAD_COST : ℕ := 2100
def WARM_SLOAD_COST : ℕ := 100
def COLD_SSTORE_COST : ℕ := 20000
def WARM_SSTORE_COST : ℕ := 2900
def SSTORE_RESET_COST : ℕ := 5000
def SSTORE_SET_COST : ℕ := 20000
def ADD_COST : ℕ := 3
def SUB_COST : ℕ := 3
def KECCAK_BASE_COST : ℕ := 30
def KECCAK_WORD_COST : ℕ := 6
def NOOP_COST : ℕ := 1

/-- `calculate_sload_gas` (gas.rs:20). -/
def calculateSloadGas (isCold : Bool) : ℕ :=
  if isCold then COLD_SLOAD_COST else WARM_SLOAD_COST

/-- `calculate_sstore_gas` (gas.rs:52). -/
def calculateSstoreGas (isCold : Bool) (current newValue : List ℕ) : ℕ :=
  let isZero := current = u256Zero
  let newIsZero := newValue = u256Zero
  if isCold then
    if newIsZero then SSTORE_RESET_COST else COLD_SSTORE_COST
  else
    if isZero then
      if newIsZero then WARM_SSTORE_COST else SSTORE_SET_COST
    else
      if newIsZero then SSTORE_RESET_COST else WARM_SSTORE_COST

/-- `calculate_keccak_gas` (gas.rs:76): base plus per-32-byte-word cost. -/
def calculateKeccakGas (dataLen : ℕ) : ℕ :=
  KECCAK_BASE_COST + KECCAK_WORD_COST * ((dataLen + 31) / 32)

/-! ## Execution context — `src/src/evm/context.rs` -/

/-- `u64::MAX`, the default gas limit. -/
def U64_MAX : ℕ := 2 ^ 64 - 1

/-- `ExecutionContext` (context.rs:5).  `storage` holds the logical map the
context's `MemoryStore` handle points at. -/
structure Ctx where
  storage : Store
  warmKeys : List Key
  coldKeys : List Key
  accessSets : AccessSets
  gasUsed : ℕ
  stack : List (List ℕ)
  gasLimit : ℕ

/-- `ExecutionContext::new` (context.rs:16). -/
def Ctx.new (storage : Store) : Ctx :=
  ⟨storage, [], [], AccessSets.empty, 0, [], U64_MAX⟩

/-- `ExecutionContext::with_warm_keys`, called by the parallel executor
(scheduler/parallel.rs:162) but defined nowhere in the sources.
Modelled from the spec: workers "receive immutable copies of `warm_keys` at
wave start" (§5), so this is `new` with the given warm-key set. -/
def Ctx.withWarmKeys (storage : Store) (warm : List Key) : Ctx :=
  ⟨storage, warm, [], AccessSets.empty, 0, [], U64_MAX⟩

/-- `ExecutionContext::is_warm` (context.rs:50). -/
def Ctx.isWarm (ctx : Ctx) (k : Key) : Bool := decide (k ∈ ctx.warmKeys)

/-- `ExecutionContext::warm_up_keys` (context.rs:44). -/
def Ctx.warmUpKeys (ctx : Ctx) (keys : List Key) : Ctx :=
  { ctx with warmKeys := keys.foldl (fun w k => insertKey k w) ctx.warmKeys }

/-- `ExecutionContext::consume_gas` (context.rs:65): `checked_add` on the
`u64` gas counter, then the limit check of `check_gas` (context.rs:54). -/
def Ctx.consumeGas (ctx : Ctx) (amount : ℕ) : Except String Ctx :=
  if ctx.gasUsed + amount > U64_MAX then .error "Gas overflow"
  else
    let ctx' := { ctx with gasUsed := ctx.gasUsed + amount }
    if ctx'.gasUsed > ctx'.gasLimit then .error "Out of gas"
    else .ok ctx'

/-! ## Micro-op interpreter — `src/src/evm/ops.rs` and `src/src/evm/mod.rs`

`blake3::hash` is not modelled bit-for-bit: the interpreter is parameterised
by the hash function `hashFn` (the spec makes hashing a non-goal and no
theorem below depends on hash values). -/

/-- `execute_op` (ops.rs:7): one micro-operation, mutating the context,
`Err` on stack underflow or gas failure. -/
def executeOp (hashFn : List ℕ → List ℕ) (op : MicroOp) (ctx : Ctx) :
    Except String Ctx :=
  match op with
  | .sload k =>
      -- execute_sload (ops.rs:22)
      let isCold := !ctx.isWarm k
      match ctx.consumeGas (calculateSloadGas isCold) with
      | .error e => .error e
      | .ok c1 =>
          let c2 := if isCold then
              { c1 with coldKeys := insertKey k c1.coldKeys,
                        warmKeys := insertKey k c1.warmKeys }
            else c1
          let c3 := { c2 with accessSets := c2.accessSets.addRead k }
          let v := storeGet c3.storage k
          .ok { c3 with stack := c3.stack ++ [v] }
  | .sstore k v =>
      -- execute_sstore (ops.rs:57)
      let isCold := !ctx.isWarm k
      let current := storeGet ctx.storage k
      match ctx.consumeGas (calculateSstoreGas isCold current v) with
      | .error e => .error e
      | .ok c1 =>
          let c2 := if isCold then
              { c1 with coldKeys := insertKey k c1.coldKeys,
                        warmKeys := insertKey k c1.warmKeys }
            else c1
          let c3 := { c2 with accessSets := c2.accessSets.addWrite k }
          .ok { c3 with storage := storeSet c3.storage k v }
  | .add v =>
      -- execute_add (ops.rs:97)
      match ctx.consumeGas ADD_COST with
      | .error e => .error e
      | .ok c1 =>
          match c1.stack.getLast? with
          | some a =>
              .ok { c1 with stack := c1.stack.dropLast ++ [u256Add a v] }
          | none => .error "Stack underflow in ADD"
  | .sub v =>
      -- execute_sub (ops.rs:112)
      match ctx.consumeGas SUB_COST with
      | .error e => .error e
      | .ok c1 =>
          match c1.stack.getLast? with
          | some a =>
              .ok { c1 with stack := c1.stack.dropLast ++ [u256Sub a v] }
          | none => .error "Stack underflow in SUB"
  | .keccak data =>
      -- execute_keccak (ops.rs:127)
      match ctx.consumeGas (calculateKeccakGas data.length) with
      | .error e => .error e
      | .ok c1 => .ok { c1 with stack := c1.stack ++ [hashFn data] }
  | .noop =>
      -- execute_noop (ops.rs:148)
      match ctx.consumeGas NOOP_COST with
      | .error e => .error e
      | .ok c1 => .ok c1

/-- The per-op loop of `execute_transaction` (evm/mod.rs:23): run the ops in
order; on the first error stop, keeping the context as mutated so far
(`ctx` is `&mut` in the source, so earlier storage writes persist). -/
def runOps (hashFn : List ℕ → List ℕ) : List MicroOp → Ctx → Option String × Ctx
  | [], ctx => (none, ctx)
  | op :: ops, ctx =>
      match executeOp hashFn op ctx with
      | .ok ctx' => runOps hashFn ops ctx'
      | .error e => (some e, ctx)

/-- `execute_transaction` (evm/mod.rs:13): warm the EIP-2930 access list,
run the program, and build the success or failure result.  Returns the
result together with the mutated context. -/
def executeTransaction (hashFn : List ℕ → List ℕ) (tx : Transaction)
    (ctx : Ctx) : ExecutionResult × Ctx :=
  let ctx1 := ctx.warmUpKeys tx.metadata.accessList
  match runOps hashFn tx.metadata.program ctx1 with
  | (some e, ctx') => (ExecutionResult.mkFailure tx.id e, ctx')
  | (none, ctx') =>
      (ExecutionResult.mkSuccess tx.id ctx'.gasUsed ctx'.accessSets
        ctx'.warmKeys ctx'.coldKeys, ctx')

/-- The per-transaction body of `execute_serial` (evm/mod.rs:60-73): reset
the per-transaction state (keeping storage and warm keys), execute, add the
gas, push the result. -/
def serialStep (hashFn : List ℕ → List ℕ)
    (acc : Ctx × List ExecutionResult × ℕ) (tx : Transaction) :
    Ctx × List ExecutionResult × ℕ :=
  let ctx0 := { acc.1 with coldKeys := [], accessSets := AccessSets.empty,
                           gasUsed := 0, stack := [] }
  let r := executeTransaction hashFn tx ctx0
  (r.2, acc.2.1 ++ [r.1], acc.2.2 + r.1.gasUsed)

/-- `execute_serial` (evm/mod.rs:49): one shared context over the block's
transactions in order; returns `(final_storage, results, total_gas)`. -/
def executeSerial (hashFn : List ℕ → List ℕ) (block : Block)
    (storage : Store) : Store × List ExecutionResult × ℕ :=
  let acc := block.transactions.foldl (serialStep hashFn) (Ctx.new storage, [], 0)
  (acc.1.storage, acc.2.1, acc.2.2)


/-! ## Access oracle — `src/src/scheduler/access_oracle.rs`

The crate's `HeuristicOracle` holds `miss_rate: f64` and a
`Mutex<StdRng>` seeded with 12345.  Each access-list key and each program op
consumes one RNG sample, and the key is added only when
`rng.gen::<f64>() >= miss_rate`.  We model the outcome of the i-th threshold
test as `draw i : Bool` and thread the sample counter explicitly, so a call
is a function of the transaction *and* the RNG position — exactly the
statefulness the source exhibits.  Note the declared `tx.reads`/`tx.writes`
lines are commented out in the source (access_oracle.rs:39-40). -/

/-- `HeuristicOracle::estimate_access_sets` of the crate
(src/src/scheduler/access_oracle.rs:35): scans only the access list and the
program, dropping each key whose RNG sample misses; returns the sets and the
advanced sample counter. -/
def rngEstimate (draw : Nat → Bool) (i : Nat) (tx : Transaction) : AccessSets × Nat :=
  let acc1 := tx.metadata.accessList.foldl
    (fun (acc : AccessSets × Nat) k =>
      (if draw acc.2 then acc.1.addRead k else acc.1, acc.2 + 1))
    (AccessSets.empty, i)
  tx.metadata.program.foldl
    (fun (acc : AccessSets × Nat) op =>
      (if draw acc.2 then
          match op with
          | .sload k => acc.1.addRead k
          | .sstore k _ => acc.1.addWrite k
          | _ => acc.1
        else acc.1, acc.2 + 1))
    acc1

/-- `HeuristicOracle::extract_address`
(src/pevm-opt-2/src/scheduler/access_oracle.rs:48). -/
def extractAddress (data : List Nat) : Option (List Nat) :=
  if data.length >= 20 then some (data.take 20) else none

/-- `HeuristicOracle::estimate_access_sets` of the vendored copy
(src/pevm-opt-2/src/scheduler/access_oracle.rs:66): declared reads/writes,
then the access list as reads, then a scan of the program; `Keccak` consults
the learned `address_patterns` (empty for `HeuristicOracle::new`). -/
def pevmEstimate (patterns : List (List Nat × List (List Nat))) (tx : Transaction) :
    AccessSets :=
  let s1 := tx.reads.foldl AccessSets.addRead AccessSets.empty
  let s2 := tx.writes.foldl AccessSets.addWrite s1
  let s3 := tx.metadata.accessList.foldl AccessSets.addRead s2
  tx.metadata.program.foldl
    (fun s op =>
      match op with
      | .sload k => s.addRead k
      | .sstore k _ => s.addWrite k
      | .keccak data =>
          match extractAddress data with
          | some addr =>
              match patterns.find? (fun p => p.1 = addr) with
              | some p => p.2.foldl (fun s sl => s.addRead (Key.mk addr sl)) s
              | none => s
          | none => s
      | _ => s)
    s3

/-! ## Conflict graph — `src/src/scheduler/conflict_graph.rs` (the
`get_neighbors` accessor called by `mis.rs` is defined in the repository's
vendored copy, `src/pevm-opt-2/src/scheduler/conflict_graph.rs:42`). -/

/-- Generic insert-if-absent (`AHashSet::insert`). -/
def insertElem {a : Type} [DecidableEq a] (x : a) (l : List a) : List a :=
  if x ∈ l then l else l ++ [x]

/-- Lookup in a `Nat`-keyed association list, empty default
(`edges.get(&id).cloned().unwrap_or_default()`). -/
def alistGetNat (l : List (Nat × List Nat)) (k : Nat) : List Nat :=
  match l.find? (fun p => p.1 = k) with
  | some p => p.2
  | none => []

/-- Lookup in the `Key`-keyed inverted index, empty default. -/
def alistKeyGet (l : List (Key × List Nat)) (k : Key) : List Nat :=
  match l.find? (fun p => p.1 = k) with
  | some p => p.2
  | none => []

/-- `edges.entry(u).or_default().insert(v)`: add `v` to `u`'s adjacency
set, creating the entry if needed. -/
def adjInsert (l : List (Nat × List Nat)) (u v : Nat) : List (Nat × List Nat) :=
  if (l.find? (fun p => p.1 = u)).isSome then
    l.map (fun p => if p.1 = u then (p.1, insertElem v p.2) else p)
  else l ++ [(u, [v])]

/-- `ConflictGraph` (conflict_graph.rs:5). -/
structure ConflictGraph where
  nodes : List (Nat × AccessSets)
  edges : List (Nat × List Nat)

/-- `ConflictGraph::add_edge` (conflict_graph.rs:24): undirected, both
adjacency sets updated. -/
def ConflictGraph.addEdge (g : ConflictGraph) (u v : Nat) : ConflictGraph :=
  { g with edges := adjInsert (adjInsert g.edges u v) v u }

/-- `ConflictGraph::get_neighbors`
(pevm-opt-2/src/scheduler/conflict_graph.rs:42). -/
def ConflictGraph.getNeighbors (g : ConflictGraph) (n : Nat) : List Nat :=
  alistGetNat g.edges n

/-- The `key → tx_ids` inverted index of `ConflictGraph::build`
(conflict_graph.rs:44-49): `Vec::push`, duplicates allowed, reads chained
before writes. -/
def buildKeyIndex (txs : List (Nat × AccessSets)) : List (Key × List Nat) :=
  txs.foldl
    (fun idx p =>
      (p.2.reads ++ p.2.writes).foldl
        (fun idx k =>
          if (idx.find? (fun q => q.1 = k)).isSome then
            idx.map (fun q => if q.1 = k then (q.1, q.2 ++ [p.1]) else q)
          else idx ++ [(k, [p.1])])
        idx)
    []

/-- `ConflictGraph::build` (conflict_graph.rs:35): insert all vertices (map
insert = overwrite), build the inverted key index, then for each transaction
test each candidate sharing a key exactly once (dedup through the `checked`
set of canonical `(min, max)` pairs) and add an edge when the two access
sets conflict. -/
def ConflictGraph.build (txs : List (Nat × AccessSets)) : ConflictGraph :=
  let g0 : ConflictGraph := txs.foldl
    (fun g p =>
      { nodes := (p.1, p.2) :: g.nodes.filter (fun q => decide (q.1 ≠ p.1)),
        edges := if (g.edges.find? (fun q => q.1 = p.1)).isSome then g.edges
                 else g.edges ++ [(p.1, [])] })
    (ConflictGraph.mk [] [])
  let keyIndex := buildKeyIndex txs
  let step := fun (acc : ConflictGraph × List (Nat × Nat)) (p : Nat × AccessSets) =>
    let candidates := (p.2.reads ++ p.2.writes).foldl
      (fun c k => (alistKeyGet keyIndex k).foldl (fun c t => insertElem t c) c) []
    candidates.foldl
      (fun acc other =>
        if other = p.1 then acc
        else
          let pair := if p.1 < other then (p.1, other) else (other, p.1)
          if pair ∈ acc.2 then acc
          else
            let checked := acc.2 ++ [pair]
            match acc.1.nodes.find? (fun q => q.1 = other) with
            | some q =>
                if p.2.hasConflictWith q.2 then (acc.1.addEdge p.1 other, checked)
                else (acc.1, checked)
            | none => (acc.1, checked))
      acc
  (txs.foldl step (g0, [])).1

/-! ## MIS wave scheduler — `src/src/scheduler/mis.rs`

`find_mis` repeatedly takes `remaining.iter().min_by_key(|n|
get_neighbors(n).len())`.  `AHashSet` iteration order is unspecified;
`min_by_key` returns the first minimum in that order.  We resolve the order
to list (insertion) order; every property proved below about the result
(independence, subset, partition, bound, sortedness) holds for any
resolution of the tie-break. -/

/-- `min_by_key` over a list by neighbour-count: first minimum wins. -/
def argminDeg (nbrs : Nat → List Nat) : List Nat → Option Nat
  | [] => none
  | x :: xs =>
      match argminDeg nbrs xs with
      | none => some x
      | some y => if (nbrs x).length ≤ (nbrs y).length then some x else some y

theorem argminDeg_mem (nbrs : Nat → List Nat) :
    ∀ (l : List Nat) (y : Nat), argminDeg nbrs l = some y → y ∈ l := by
  intro l
  induction l with
  | nil => intro y h; simp [argminDeg] at h
  | cons x xs ih =>
      intro y h
      simp only [argminDeg] at h
      split at h
      · simp at h
        simp [h]
      · next z hz =>
          split at h
          · simp at h
            simp [h]
          · simp at h
            exact List.mem_cons_of_mem _ (h ▸ ih z hz)

theorem length_filter_lt {a : Type} (p : a → Bool) (l : List a) (x : a)
    (hx : x ∈ l) (hpx : p x = false) : (l.filter p).length < l.length := by
  induction l with
  | nil => cases hx
  | cons y ys ih =>
      rcases List.mem_cons.mp hx with rfl | hmem
      · rw [List.filter_cons, hpx]
        have hle := List.length_filter_le p ys
        simpa using Nat.lt_succ_of_le hle
      · rw [List.filter_cons]
        cases hy : p y
        · simpa using Nat.lt_succ_of_lt (ih hmem)
        · simpa using Nat.succ_lt_succ (ih hmem)

/-- The loop of `MIScheduler::find_mis` (mis.rs:18-28): while candidates
remain and the wave is below `max_wave_size`, take the minimum-degree node,
add it to the set, and drop it and its neighbours from the candidates.
Embedded as structural recursion on a pass counter: every pass removes at
least the chosen node from the candidate set, so `|available|` passes always
suffice, and when the counter runs out the candidate set is already empty —
exactly where the `while` guard stops. -/
def findMisAux (nbrs : Nat → List Nat) (maxWave : Nat) :
    Nat → List Nat → List Nat → List Nat
  | 0, _, mis => mis
  | fuel + 1, remaining, mis =>
      if remaining = [] ∨ ¬ mis.length < maxWave then mis
      else
        match argminDeg nbrs remaining with
        | none => mis
        | some node =>
            findMisAux nbrs maxWave fuel
              (remaining.filter fun x => decide (x ≠ node ∧ x ∉ nbrs node))
              (mis ++ [node])

/-- `MIScheduler::find_mis` (mis.rs:14). -/
def findMis (nbrs : Nat → List Nat) (available : List Nat) (maxWave : Nat) :
    List Nat :=
  findMisAux nbrs maxWave available.length available []

theorem findMisAux_sub (nbrs : Nat → List Nat) (maxWave : Nat) :
    ∀ (fuel : Nat) (remaining mis : List Nat) (x : Nat),
      x ∈ findMisAux nbrs maxWave fuel remaining mis →
        x ∈ remaining ∨ x ∈ mis := by
  intro fuel
  induction fuel with
  | zero => intro remaining mis x hx; exact Or.inr hx
  | succ fuel ih =>
    intro remaining mis x hx
    simp only [findMisAux] at hx
    by_cases hstop : remaining = [] ∨ ¬ mis.length < maxWave
    · rw [if_pos hstop] at hx
      exact Or.inr hx
    · rw [if_neg hstop] at hx
      rcases hm : argminDeg nbrs remaining with _ | node
      · rw [hm] at hx
        exact Or.inr hx
      · rw [hm] at hx
        have hnode := argminDeg_mem nbrs remaining node hm
        rcases ih _ _ x hx with h | h
        · exact Or.inl (List.mem_of_mem_filter h)
        · rcases List.mem_append.mp h with h1 | h1
          · exact Or.inr h1
          · simp at h1
            exact Or.inl (h1 ▸ hnode)

theorem findMis_sub (nbrs : Nat → List Nat) (available : List Nat)
    (maxWave : Nat) : ∀ x ∈ findMis nbrs available maxWave, x ∈ available := by
  intro x hx
  rcases findMisAux_sub nbrs maxWave available.length available [] x hx with h | h
  · exact h
  · cases h

theorem scheduleLoop_dec (nbrs : Nat → List Nat) (maxWave t : Nat)
    (rest : List Nat)
    (hmis : ¬ findMis nbrs (t :: rest) maxWave = []) :
    ((t :: rest).filter fun x =>
        decide (x ∉ List.insertionSort (· ≤ ·)
          (findMis nbrs (t :: rest) maxWave))).length
      < (t :: rest).length := by
  have hmem : (findMis nbrs (t :: rest) maxWave).head hmis
      ∈ findMis nbrs (t :: rest) maxWave := List.head_mem hmis
  have hrem' : (findMis nbrs (t :: rest) maxWave).head hmis ∈ t :: rest :=
    findMis_sub nbrs (t :: rest) maxWave _ hmem
  have hwave : (findMis nbrs (t :: rest) maxWave).head hmis
      ∈ List.insertionSort (· ≤ ·) (findMis nbrs (t :: rest) maxWave) :=
    ((List.perm_insertionSort (· ≤ ·) _).mem_iff).mpr hmem
  exact length_filter_lt _ _ _ hrem' (by simp [hwave])

/-- The outer loop of `MIScheduler::schedule` (mis.rs:45-60): find an MIS of
the remaining ids; if empty, emit a singleton fallback wave, otherwise sort
the MIS ascending, emit it, and remove it from the remaining set.
Structural recursion on a pass counter, as in `findMisAux`: every pass
removes at least one id (the fallback singleton, or the non-empty wave),
so `|remaining|` passes suffice and the counter runs out only on an empty
remainder. -/
def scheduleLoop (nbrs : Nat → List Nat) (maxWave : Nat) :
    Nat → List Nat → List (List Nat)
  | 0, _ => []
  | _ + 1, [] => []
  | fuel + 1, t :: rest =>
      let mis := findMis nbrs (t :: rest) maxWave
      if mis = [] then
        -- fallback (mis.rs:47-51): emit a singleton of one remaining id
        -- (`remaining.iter().next()`, an arbitrary element — resolved to the
        -- first in insertion order)
        [t] :: scheduleLoop nbrs maxWave fuel rest
      else
        let wave := List.insertionSort (· ≤ ·) mis
        wave :: scheduleLoop nbrs maxWave fuel
          ((t :: rest).filter fun x => decide (x ∉ wave))

/-- `MIScheduler::schedule` (mis.rs:32): collect the estimated access sets
of the block's transactions in order; with no estimates at all, one
singleton wave per transaction; otherwise build the conflict graph and run
the MIS loop over the (deduplicated) id set. -/
def schedule (maxWave : Nat) (block : Block)
    (getEstimated : Nat → Option AccessSets) : List (List Nat) :=
  let accessSets := block.transactions.filterMap
    (fun tx => (getEstimated tx.id).map (fun s => (tx.id, s)))
  if accessSets = [] then block.transactions.map (fun tx => [tx.id])
  else
    let graph := ConflictGraph.build accessSets
    scheduleLoop graph.getNeighbors maxWave
      (block.transactions.map (fun tx => tx.id)).dedup.length
      (block.transactions.map (fun tx => tx.id)).dedup

/-! ## Parallel executor — `src/src/scheduler/parallel.rs`

`ParallelExecutor` owns an `MIScheduler`, an `AccessListBuilder` (whose
boxed oracle we model as a function `oracle : Transaction → AccessSets`) and
a `MemoryStore`.  Inside a wave, every Rayon task calls
`base_storage.clone()`: for `MemoryStore` this clones the `Arc`, so all
tasks and the executor share ONE underlying map (see `memClone`).  The
embedding therefore threads a single `Store` through the wave's
transactions, serialising the Rayon interleaving in wave order; each theorem
below that evaluates `executeParallel` does so on inputs for which every
interleaving agrees with this serialisation (noted at the theorem).
The runtime-conflict check (parallel.rs:170-201) only logs and counts; it
contributes nothing to the returned value beyond the gas sum and is
represented by that sum alone. -/

/-- The result quadruple of `execute_parallel` (parallel.rs:67):
`(final_storage, results, total_gas, waves)`. -/
structure ParallelResult where
  storage : Store
  results : List ExecutionResult
  totalGas : Nat
  waves : List (List Nat)

/-- Accumulator of the wave loop (parallel.rs:128-213). -/
structure WaveAcc where
  storage : Store
  results : List ExecutionResult
  totalGas : Nat
  prevWaveKeys : List Key

/-- The body of the Rayon task (parallel.rs:156-166): clone the shared
storage handle (same map), build a context with the previous wave's warm
keys, run the transaction.  As all clones share the map, the task reads and
writes the threaded `Store`. -/
def waveTask (hashFn : List Nat → List Nat) (prevWarm : List Key)
    (st : Store × List ExecutionResult) (tx : Transaction) :
    Store × List ExecutionResult :=
  let ctx0 := if prevWarm = [] then Ctx.new st.1
    else Ctx.withWarmKeys st.1 prevWarm
  let r := executeTransaction hashFn tx ctx0
  (r.2.storage, st.2 ++ [r.1])

/-- One iteration of the wave loop (parallel.rs:128-213): look the wave's
ids up in the `tx_id → Transaction` table, skip an empty wave, execute each
transaction in a context holding the shared storage and a copy of the
previous wave's keys, sum gas over successful results, rebuild
`prev_wave_keys` from this wave's actual accesses, and append the results. -/
def waveStep (hashFn : List Nat → List Nat) (txMap : Nat → Option Transaction)
    (acc : WaveAcc) (wave : List Nat) : WaveAcc :=
  let waveTxs := wave.filterMap txMap
  if waveTxs = [] then acc
  else
    let inner := waveTxs.foldl (waveTask hashFn acc.prevWaveKeys)
      (acc.storage, [])
    let waveResults := inner.2
    let gas := waveResults.foldl
      (fun g r => if r.success then g + r.gasUsed else g) acc.totalGas
    let newWarm := waveResults.foldl
      (fun w r => (r.accessSets.reads ++ r.accessSets.writes).foldl
        (fun w k => insertElem k w) w)
      []
    ⟨inner.1, acc.results ++ waveResults, gas, newWarm⟩

/-- `ParallelExecutor::execute_parallel` (parallel.rs:64): estimate every
transaction with the oracle, schedule the waves, run the wave loop, and
return the shared storage, the results in wave order, the gas total and the
scheduler's waves. -/
def executeParallel (hashFn : List Nat → List Nat)
    (oracle : Transaction → AccessSets) (maxWave : Nat) (block : Block)
    (storage : Store) : ParallelResult :=
  let estimated := block.transactions.map (fun tx => (tx.id, oracle tx))
  let getEstimated := fun i => (estimated.find? (fun p => p.1 = i)).map (fun p => p.2)
  let waves := schedule maxWave block getEstimated
  -- tx_map (parallel.rs:122): `AHashMap` collected from the transaction
  -- list; for the duplicate-free blocks of every theorem below, `find?`
  -- agrees with it
  let txMap := fun i => block.transactions.find? (fun tx => tx.id = i)
  let fin := waves.foldl (waveStep hashFn txMap) ⟨storage, [], 0, []⟩
  ⟨fin.storage, fin.results, fin.totalGas, waves⟩

/-! ## Concrete vectors for the evaluation theorems -/

/-- Stand-in for `blake3::hash`; no theorem below executes a `keccak` op. -/
def zeroHash : List Nat → List Nat := fun _ => u256Zero

def K1 : Key := ⟨List.replicate 20 1, List.replicate 32 1⟩
def K2 : Key := ⟨List.replicate 20 2, List.replicate 32 2⟩

/-- A transaction with empty declared sets and access list, like the ones
`create_test_tx` builds in the crate's tests. -/
def mkTx (i : Nat) (prog : List MicroOp) : Transaction :=
  ⟨i, [], [], 100000, ⟨prog, [], 0, i, List.replicate 20 0⟩⟩

/-- Three-transaction block: tx 0 writes `K1` and `K2`, tx 1 writes `K1`,
tx 2 writes `K2`.  Conflict edges 0–1 and 0–2, so the minimum-degree MIS
puts 1 and 2 in the first wave and 0 in the second — *after* both. -/
def B1 : Block :=
  ⟨1, 0, [mkTx 0 [.sstore K1 (u256FromU64 10), .sstore K2 (u256FromU64 11)],
          mkTx 1 [.sstore K1 (u256FromU64 20)],
          mkTx 2 [.sstore K2 (u256FromU64 22)]], List.replicate 32 0⟩

/-- Two-transaction block where tx 1 reads the key tx 0 writes. -/
def B2 : Block :=
  ⟨1, 0, [mkTx 0 [.sstore K1 (u256FromU64 5)],
          mkTx 1 [.sload K1, .sstore K2 (u256FromU64 9)]], List.replicate 32 0⟩

/-- Single transaction whose `SStore` succeeds and whose `Add` then fails
with a stack underflow. -/
def B9 : Block :=
  ⟨1, 0, [mkTx 0 [.sstore K1 (u256FromU64 7), .add (u256FromU64 1)]],
    List.replicate 32 0⟩

/-- `HeuristicOracle` instance view in which every RNG threshold test
passes (`rng.gen::<f64>() >= miss_rate` each time — the typical draw at
`miss_rate = 0.05`). -/
def keepAll : Transaction → AccessSets :=
  fun tx => (rngEstimate (fun _ => true) 0 tx).1

/-- `HeuristicOracle` instance view in which every RNG threshold test
fails, so every key is dropped from the estimate. -/
def missAll : Transaction → AccessSets :=
  fun tx => (rngEstimate (fun _ => false) 0 tx).1

/-- A transaction that only declares accesses: `reads = [K1]`,
`writes = [K2]`, empty access list and program. -/
def txD : Transaction := ⟨0, [K1], [K2], 100000, ⟨[], [], 0, 0, List.replicate 20 0⟩⟩

/-- A transaction whose program is a single `SStore`. -/
def txE : Transaction := mkTx 0 [.sstore K1 (u256FromU64 1)]

/-- An RNG draw sequence whose first threshold test passes and whose second
fails. -/
def sDraw : Nat → Bool := fun i => i = 0

/-! ## Interpreter lemmas -/

theorem executeTransaction_txId (hashFn : List Nat → List Nat)
    (tx : Transaction) (ctx : Ctx) :
    (executeTransaction hashFn tx ctx).1.txId = tx.id := by
  cases h : runOps hashFn tx.metadata.program (ctx.warmUpKeys tx.metadata.accessList) with
  | mk o c =>
      simp only [executeTransaction]
      rw [h]
      cases o <;> rfl

theorem executeTransaction_failure (hashFn : List Nat → List Nat)
    (tx : Transaction) (ctx : Ctx)
    (hs : (executeTransaction hashFn tx ctx).1.success = false) :
    (executeTransaction hashFn tx ctx).1.error.isSome = true
    ∧ (executeTransaction hashFn tx ctx).1.accessSets = AccessSets.empty
    ∧ (executeTransaction hashFn tx ctx).1.gasUsed = 0 := by
  cases h : runOps hashFn tx.metadata.program (ctx.warmUpKeys tx.metadata.accessList) with
  | mk o c =>
      simp only [executeTransaction] at hs ⊢
      rw [h] at hs ⊢
      cases o with
      | none => simp [ExecutionResult.mkSuccess] at hs
      | some e => simp [ExecutionResult.mkFailure]

theorem serialFold_results (hashFn : List Nat → List Nat) :
    ∀ (txs : List Transaction) (acc : Ctx × List ExecutionResult × Nat),
      (txs.foldl (serialStep hashFn) acc).2.1.length = acc.2.1.length + txs.length
      ∧ ∀ r ∈ (txs.foldl (serialStep hashFn) acc).2.1,
          r ∈ acc.2.1 ∨ ∃ tx ctx, r = (executeTransaction hashFn tx ctx).1 := by
  intro txs
  induction txs with
  | nil => intro acc; exact ⟨by simp, fun r hr => Or.inl hr⟩
  | cons tx txs ih =>
      intro acc
      simp only [List.foldl_cons]
      constructor
      · rw [(ih (serialStep hashFn acc tx)).1]
        simp [serialStep]
        omega
      · intro r hr
        rcases (ih (serialStep hashFn acc tx)).2 r hr with h | h
        · simp only [serialStep, List.mem_append, List.mem_singleton] at h
          rcases h with h | h
          · exact Or.inl h
          · exact Or.inr ⟨tx, _, h⟩
        · exact Or.inr h

/-! ## MIS lemmas -/

theorem findMisAux_indep (nbrs : Nat → List Nat) (maxWave : Nat)
    (hsym : ∀ u v, u ∈ nbrs v → v ∈ nbrs u) :
    ∀ (fuel : Nat) (remaining mis : List Nat),
      (∀ u ∈ mis, ∀ v ∈ mis, u ≠ v → v ∉ nbrs u) →
      (∀ v ∈ remaining, ∀ u ∈ mis, v ∉ nbrs u ∧ v ≠ u) →
      ∀ u ∈ findMisAux nbrs maxWave fuel remaining mis,
        ∀ v ∈ findMisAux nbrs maxWave fuel remaining mis, u ≠ v → v ∉ nbrs u := by
  intro fuel
  induction fuel with
  | zero => intro remaining mis hI1 _; exact hI1
  | succ fuel ih =>
    intro remaining mis hI1 hI2
    simp only [findMisAux]
    by_cases hstop : remaining = [] ∨ ¬ mis.length < maxWave
    · rw [if_pos hstop]; exact hI1
    · rw [if_neg hstop]
      rcases hm : argminDeg nbrs remaining with _ | node
      · exact hI1
      · have hnode : node ∈ remaining := argminDeg_mem nbrs remaining node hm
        apply ih
        · -- I1 for mis ++ [node]
          intro u hu v hv huv
          rcases List.mem_append.mp hu with hu1 | hu1 <;>
            rcases List.mem_append.mp hv with hv1 | hv1
          · exact hI1 u hu1 v hv1 huv
          · simp at hv1
            subst hv1
            exact (hI2 v hnode u hu1).1
          · simp at hu1
            subst hu1
            intro hvn
            exact (hI2 u hnode v hv1).1 (hsym v u hvn)
          · simp at hu1 hv1
            exact absurd (hu1.trans hv1.symm) huv
        · -- I2 for the filtered remaining and mis ++ [node]
          intro v hv u hu
          have hv' := List.mem_filter.mp hv
          have hvrem : v ∈ remaining := hv'.1
          have hvp : v ≠ node ∧ v ∉ nbrs node := by
            have := hv'.2
            simpa using this
          rcases List.mem_append.mp hu with hu1 | hu1
          · exact hI2 v hvrem u hu1
          · simp at hu1
            subst hu1
            exact ⟨hvp.2, hvp.1⟩

theorem findMisAux_nodup (nbrs : Nat → List Nat) (maxWave : Nat) :
    ∀ (fuel : Nat) (remaining mis : List Nat),
      mis.Nodup → (∀ x ∈ mis, x ∉ remaining) →
      (findMisAux nbrs maxWave fuel remaining mis).Nodup := by
  intro fuel
  induction fuel with
  | zero => intro remaining mis hnd _; exact hnd
  | succ fuel ih =>
    intro remaining mis hnd hdis
    simp only [findMisAux]
    by_cases hstop : remaining = [] ∨ ¬ mis.length < maxWave
    · rw [if_pos hstop]; exact hnd
    · rw [if_neg hstop]
      rcases hm : argminDeg nbrs remaining with _ | node
      · exact hnd
      · have hnode : node ∈ remaining := argminDeg_mem nbrs remaining node hm
        apply ih
        · -- mis ++ [node] is duplicate-free
          rw [List.nodup_append]
          refine ⟨hnd, List.nodup_singleton node, ?_⟩
          intro x hx
          simp only [List.mem_singleton]
          intro hxeq
          exact hdis x hx (hxeq ▸ hnode)
        · -- mis ++ [node] is disjoint from the filtered remaining
          intro x hx hxf
          have hx' := List.mem_filter.mp hxf
          rcases List.mem_append.mp hx with h1 | h1
          · exact hdis x h1 hx'.1
          · simp at h1
            subst h1
            have hxp := hx'.2
            simp at hxp

theorem findMisAux_length (nbrs : Nat → List Nat) (maxWave : Nat) :
    ∀ (fuel : Nat) (remaining mis : List Nat),
      mis.length ≤ maxWave →
      (findMisAux nbrs maxWave fuel remaining mis).length ≤ maxWave := by
  intro fuel
  induction fuel with
  | zero => intro remaining mis hle; exact hle
  | succ fuel ih =>
    intro remaining mis hle
    simp only [findMisAux]
    by_cases hstop : remaining = [] ∨ ¬ mis.length < maxWave
    · rw [if_pos hstop]; exact hle
    · rw [if_neg hstop]
      push_neg at hstop
      rcases hm : argminDeg nbrs remaining with _ | node
      · exact hle
      · apply ih
        simp only [List.length_append, List.length_singleton]
        omega

theorem findMis_nodup (nbrs : Nat → List Nat) (available : List Nat)
    (maxWave : Nat) : (findMis nbrs available maxWave).Nodup :=
  findMisAux_nodup nbrs maxWave available.length available []
    List.nodup_nil (by simp)

/-! ## Wave partition lemmas -/

theorem count_filter_not_mem (l s : List Nat) (a : Nat) (ha : a ∉ s) :
    (l.filter fun x => decide (x ∉ s)).count a = l.count a := by
  induction l with
  | nil => rfl
  | cons x xs ih =>
      by_cases hx : x ∈ s
      · rw [List.filter_cons, if_neg (by simpa using hx), ih, List.count_cons]
        have hxa : ¬ a = x := fun h => ha (h ▸ hx)
        have hax : ¬ x = a := fun h => hxa h.symm
        simp [hxa, hax]
      · rw [List.filter_cons, if_pos (by simpa using hx),
          List.count_cons, List.count_cons, ih]

theorem perm_cover_filter (l s : List Nat) (hl : l.Nodup) (hs : s.Nodup)
    (hsub : ∀ x ∈ s, x ∈ l) :
    l.Perm (s ++ l.filter fun x => decide (x ∉ s)) := by
  rw [List.perm_iff_count]
  intro a
  rw [List.count_append]
  by_cases ha : a ∈ s
  · have h1 : s.count a = 1 := List.count_eq_one_of_mem hs ha
    have h2 : (l.filter fun x => decide (x ∉ s)).count a = 0 := by
      rw [List.count_eq_zero]
      intro hmem
      have hm := List.mem_filter.mp hmem
      simp at hm
      exact hm.2 ha
    have h3 : l.count a = 1 := List.count_eq_one_of_mem hl (hsub a ha)
    rw [h1, h2, h3]
  · have h1 : s.count a = 0 := List.count_eq_zero_of_not_mem ha
    rw [h1, count_filter_not_mem l s a ha]
    omega

theorem scheduleLoop_perm (nbrs : Nat → List Nat) (maxWave : Nat) :
    ∀ (fuel : Nat) (remaining : List Nat), remaining.length ≤ fuel →
      remaining.Nodup →
      (scheduleLoop nbrs maxWave fuel remaining).flatten.Perm remaining := by
  intro fuel
  induction fuel with
  | zero =>
      intro remaining hlen _
      rw [Nat.le_zero, List.length_eq_zero] at hlen
      subst hlen
      rfl
  | succ fuel ih =>
    intro remaining hlen hnd
    cases remaining with
    | nil => rfl
    | cons t rest =>
        simp only [scheduleLoop]
        by_cases hmis : findMis nbrs (t :: rest) maxWave = []
        · rw [if_pos hmis]
          simp only [List.flatten_cons]
          have hrest := ih rest (by simp at hlen; omega)
            (List.Nodup.of_cons hnd)
          simpa using hrest.cons t
        · rw [if_neg hmis]
          simp only [List.flatten_cons]
          have hmisnd : (findMis nbrs (t :: rest) maxWave).Nodup :=
            findMis_nodup nbrs (t :: rest) maxWave
          have hwnd : (List.insertionSort (· ≤ ·)
              (findMis nbrs (t :: rest) maxWave)).Nodup :=
            ((List.perm_insertionSort (· ≤ ·) _).nodup_iff).mpr hmisnd
          have hwsub : ∀ x ∈ List.insertionSort (· ≤ ·)
              (findMis nbrs (t :: rest) maxWave), x ∈ t :: rest := by
            intro x hx
            exact findMis_sub nbrs (t :: rest) maxWave x
              (((List.perm_insertionSort (· ≤ ·) _).mem_iff).mp hx)
          have hflt := scheduleLoop_dec nbrs maxWave t rest hmis
          have hfnd : ((t :: rest).filter fun x =>
              decide (x ∉ List.insertionSort (· ≤ ·)
                (findMis nbrs (t :: rest) maxWave))).Nodup :=
            List.Nodup.filter _ hnd
          have hrec := ih _ (by simp at hflt hlen ⊢; omega) hfnd
          exact (List.Perm.append_left _ hrec).trans
            (perm_cover_filter (t :: rest) _ hnd hwnd hwsub).symm

theorem scheduleLoop_sorted (nbrs : Nat → List Nat) (maxWave : Nat) :
    ∀ (fuel : Nat) (remaining : List Nat),
      ∀ w ∈ scheduleLoop nbrs maxWave fuel remaining, w.Sorted (· ≤ ·) := by
  intro fuel
  induction fuel with
  | zero => intro remaining w hw; simp [scheduleLoop] at hw
  | succ fuel ih =>
    intro remaining w hw
    cases remaining with
    | nil => simp [scheduleLoop] at hw
    | cons t rest =>
        simp only [scheduleLoop] at hw
        by_cases hmis : findMis nbrs (t :: rest) maxWave = []
        · rw [if_pos hmis] at hw
          rcases List.mem_cons.mp hw with h | h
          · subst h; exact List.sorted_singleton t
          · exact ih rest w h
        · rw [if_neg hmis] at hw
          rcases List.mem_cons.mp hw with h | h
          · subst h; exact List.sorted_insertionSort (· ≤ ·) _
          · exact ih _ w h

theorem join_map_singleton (txs : List Transaction) :
    (txs.map (fun tx => [tx.id])).flatten = txs.map (fun tx => tx.id) := by
  induction txs with
  | nil => rfl
  | cons tx txs ih => simp [ih]

theorem schedule_partition (maxWave : Nat) (block : Block)
    (est : Nat → Option AccessSets)
    (hnd : (block.transactions.map (fun tx => tx.id)).Nodup) :
    ((schedule maxWave block est).flatten).Perm
      (block.transactions.map (fun tx => tx.id))
    ∧ ∀ w ∈ schedule maxWave block est, w.Sorted (· ≤ ·) := by
  simp only [schedule]
  by_cases hes : (block.transactions.filterMap
      fun tx => (est tx.id).map (fun s => (tx.id, s))) = []
  · rw [if_pos hes]
    constructor
    · rw [join_map_singleton]
    · intro w hw
      rcases List.mem_map.mp hw with ⟨tx, _, htx⟩
      subst htx
      exact List.sorted_singleton tx.id
  · rw [if_neg hes]
    rw [List.Nodup.dedup hnd]
    exact ⟨scheduleLoop_perm _ maxWave _ _ le_rfl hnd,
      fun w hw => scheduleLoop_sorted _ maxWave _ _ w hw⟩

/-! ## Parallel executor lemmas -/

theorem filterMap_ids (txMap : Nat → Option Transaction) :
    ∀ (wave : List Nat),
      (∀ i ∈ wave, ∃ tx, txMap i = some tx ∧ tx.id = i) →
      (wave.filterMap txMap).map (fun tx => tx.id) = wave := by
  intro wave
  induction wave with
  | nil => intro _; rfl
  | cons i is ih =>
      intro h
      obtain ⟨tx, htx, hid⟩ := h i (List.mem_cons_self _ _)
      rw [List.filterMap_cons, htx]
      simp only [List.map_cons, hid]
      rw [ih (fun j hj => h j (List.mem_cons_of_mem _ hj))]

theorem innerFold_ids (hashFn : List Nat → List Nat) (prevWarm : List Key) :
    ∀ (txs : List Transaction) (st : Store) (rs : List ExecutionResult),
      (txs.foldl (waveTask hashFn prevWarm) (st, rs)).2.map (fun r => r.txId)
        = rs.map (fun r => r.txId) ++ txs.map (fun tx => tx.id) := by
  intro txs
  induction txs with
  | nil => intro st rs; simp
  | cons tx txs ih =>
      intro st rs
      simp only [List.foldl_cons]
      rw [show waveTask hashFn prevWarm (st, rs) tx
          = ((waveTask hashFn prevWarm (st, rs) tx).1,
             rs ++ [(executeTransaction hashFn tx
               (if prevWarm = [] then Ctx.new st
                else Ctx.withWarmKeys st prevWarm)).1]) from rfl]
      rw [ih]
      simp [executeTransaction_txId]

theorem waveStep_ids (hashFn : List Nat → List Nat)
    (txMap : Nat → Option Transaction) (acc : WaveAcc) (wave : List Nat)
    (h : ∀ i ∈ wave, ∃ tx, txMap i = some tx ∧ tx.id = i) :
    (waveStep hashFn txMap acc wave).results.map (fun r => r.txId)
      = acc.results.map (fun r => r.txId) ++ wave := by
  have hids := filterMap_ids txMap wave h
  simp only [waveStep]
  by_cases hw : wave.filterMap txMap = []
  · rw [if_pos hw]
    rw [hw] at hids
    simp at hids
    simp [← hids]
  · rw [if_neg hw]
    simp only [List.map_append]
    rw [innerFold_ids hashFn acc.prevWaveKeys (wave.filterMap txMap) acc.storage []]
    simp [hids]

theorem waveFold_ids (hashFn : List Nat → List Nat)
    (txMap : Nat → Option Transaction) :
    ∀ (waves : List (List Nat)) (acc : WaveAcc),
      (∀ w ∈ waves, ∀ i ∈ w, ∃ tx, txMap i = some tx ∧ tx.id = i) →
      (waves.foldl (waveStep hashFn txMap) acc).results.map (fun r => r.txId)
        = acc.results.map (fun r => r.txId) ++ waves.flatten := by
  intro waves
  induction waves with
  | nil => intro acc _; simp
  | cons w ws ih =>
      intro acc h
      simp only [List.foldl_cons, List.flatten_cons]
      rw [ih (waveStep hashFn txMap acc w)
        (fun w' hw' i hi => h w' (List.mem_cons_of_mem _ hw') i hi)]
      rw [waveStep_ids hashFn txMap acc w (h w (List.mem_cons_self _ _))]
      simp

theorem txMap_total (block : Block)
    (i : Nat) (h : i ∈ block.transactions.map (fun tx => tx.id)) :
    ∃ tx, block.transactions.find? (fun tx => tx.id = i) = some tx
      ∧ tx.id = i := by
  rcases List.mem_map.mp h with ⟨tx0, htx0, hid⟩
  have hsome : (block.transactions.find? (fun tx => decide (tx.id = i))).isSome := by
    rw [List.find?_isSome]
    exact ⟨tx0, htx0, by simp [hid]⟩
  rcases Option.isSome_iff_exists.mp hsome with ⟨tx, htx⟩
  refine ⟨tx, htx, ?_⟩
  have := List.find?_some htx
  simpa using this

theorem parallel_results_ids (hashFn : List Nat → List Nat)
    (oracle : Transaction → AccessSets) (maxWave : Nat) (block : Block)
    (storage : Store)
    (hnd : (block.transactions.map (fun tx => tx.id)).Nodup) :
    (executeParallel hashFn oracle maxWave block storage).results.map
        (fun r => r.txId)
      = (executeParallel hashFn oracle maxWave block storage).waves.flatten := by
  have hpart := (schedule_partition maxWave block
    (fun i => ((block.transactions.map (fun tx => (tx.id, oracle tx))).find?
      (fun p => p.1 = i)).map (fun p => p.2)) hnd).1
  simp only [executeParallel]
  rw [waveFold_ids]
  · simp
  · intro w hw i hi
    apply txMap_total
    have hjoin : i ∈ (schedule maxWave block
        (fun i => ((block.transactions.map (fun tx => (tx.id, oracle tx))).find?
          (fun p => p.1 = i)).map (fun p => p.2))).flatten :=
      List.mem_flatten.mpr ⟨w, hw, hi⟩
    exact hpart.mem_iff.mp hjoin

/-! ## Claims

The inputs of the evaluation theorems below keep every in-wave pair of
transactions on disjoint storage keys except where noted, so every Rayon
interleaving of a wave agrees with the serialised model (see the executor
comment); the stated facts about `B2` (waves, result ids, access sets,
stored literals) are interleaving-independent as well, because stored
values are program literals and the access sets come from the program
text. -/

/-- Claim C1: the final storage of `execute_parallel` is claimed to equal
the final storage of `execute_serial` on every block.  The code violates
this: on `B1` the scheduler emits waves `[[1, 2], [0]]`, so transaction 0's
writes land *after* those of transactions 1 and 2, and the parallel storage
ends with tx 0's values while the serial storage ends with tx 1's and
tx 2's.  (The CLI benchmark's own `verify_states` check would fail here.) -/
theorem claim_C1 :
    (executeParallel zeroHash keepAll 10000 B1 []).waves = [[1, 2], [0]]
    ∧ storeGet (executeParallel zeroHash keepAll 10000 B1 []).storage K1
      = u256FromU64 10
    ∧ storeGet (executeParallel zeroHash keepAll 10000 B1 []).storage K2
      = u256FromU64 11
    ∧ storeGet (executeSerial zeroHash B1 []).1 K1 = u256FromU64 20
    ∧ storeGet (executeSerial zeroHash B1 []).1 K2 = u256FromU64 22
    ∧ storeGet (executeParallel zeroHash keepAll 10000 B1 []).storage K1
      ≠ storeGet (executeSerial zeroHash B1 []).1 K1 := by decide

/-- Claim C2 counterexample: the claim says a transaction whose actual
accesses intersect the writes of an earlier-accepted transaction of the
same wave is excluded from the commit and re-queued.  On `B2` under an
all-miss oracle both transactions are scheduled in one wave; tx 1's actual
reads contain `K1`, which tx 0 actually writes, yet tx 1 is committed in
that same wave (its `K2 := 9` write is in the final storage, its result is
in the wave, and no wave is re-run). -/
theorem claim_C2_counterexample :
    (executeParallel zeroHash missAll 10000 B2 []).waves = [[0, 1]]
    ∧ (executeParallel zeroHash missAll 10000 B2 []).results.map
        (fun r => r.txId) = [0, 1]
    ∧ K1 ∈ ((executeParallel zeroHash missAll 10000 B2 []).results.getD 1
        (ExecutionResult.mkFailure 99 "")).accessSets.reads
    ∧ K1 ∈ ((executeParallel zeroHash missAll 10000 B2 []).results.getD 0
        (ExecutionResult.mkFailure 99 "")).accessSets.writes
    ∧ storeGet (executeParallel zeroHash missAll 10000 B2 []).storage K2
      = u256FromU64 9 := by decide

/-- Claim C2 as amended: `execute_parallel` never excludes or re-queues a
transaction.  The wave list it returns is exactly the scheduler's wave
list, and the results are exactly the concatenation of those waves
(ascending `tx_id` inside each wave by C7), whether or not any runtime
conflict was detected — detection only counts and logs. -/
theorem claim_C2 (hashFn : List Nat → List Nat)
    (oracle : Transaction → AccessSets) (maxWave : Nat) (block : Block)
    (storage : Store)
    (hnd : (block.transactions.map (fun tx => tx.id)).Nodup) :
    (executeParallel hashFn oracle maxWave block storage).waves
      = schedule maxWave block (fun i =>
          ((block.transactions.map (fun tx => (tx.id, oracle tx))).find?
            (fun p => p.1 = i)).map (fun p => p.2))
    ∧ (executeParallel hashFn oracle maxWave block storage).results.map
        (fun r => r.txId)
      = (executeParallel hashFn oracle maxWave block storage).waves.flatten :=
  ⟨rfl, parallel_results_ids hashFn oracle maxWave block storage hnd⟩

/-- Witness for C2's amended theorem at a concrete block. -/
theorem claim_C2_witness :
    (executeParallel zeroHash missAll 10000 B2 []).results.map
        (fun r => r.txId)
      = (executeParallel zeroHash missAll 10000 B2 []).waves.flatten :=
  (claim_C2 zeroHash missAll 10000 B2 [] (by decide)).2

/-- Claim C3: `MemoryStore::clone` is claimed to yield an isolated
snapshot.  It does not: the struct's derived `Clone` copies the
`Arc<Mutex<..>>`, so a clone shares the underlying map, and a `set` through
the original handle is observed through the clone. -/
theorem claim_C3 :
    memGet (memSet (memNew []).1 (memNew []).2 K1 (u256FromU64 1))
        (memClone (memNew []).2) K1 = u256FromU64 1
    ∧ u256FromU64 1 ≠ u256Zero := by decide

/-- Claim C4 counterexample: the claim says `results[i].tx_id =
B.transactions[i].id` for every index.  On `B1` the results arrive in
wave-concatenation order `[1, 2, 0]`, not in the block order `[0, 1, 2]`;
the claim already fails at index 0. -/
theorem claim_C4_counterexample :
    ((executeParallel zeroHash keepAll 10000 B1 []).results.map
        (fun r => r.txId)).get? 0
      ≠ (B1.transactions.map (fun tx => tx.id)).get? 0
    ∧ (executeParallel zeroHash keepAll 10000 B1 []).results.map
        (fun r => r.txId) = [1, 2, 0] := by decide

/-- Claim C4 as amended: when the block's ids are unique,
`execute_parallel` returns exactly one result per transaction — the result
ids are a permutation of the block's ids — but in wave-concatenation order
rather than block order. -/
theorem claim_C4 (hashFn : List Nat → List Nat)
    (oracle : Transaction → AccessSets) (maxWave : Nat) (block : Block)
    (storage : Store)
    (hnd : (block.transactions.map (fun tx => tx.id)).Nodup) :
    (executeParallel hashFn oracle maxWave block storage).results.length
      = block.transactions.length
    ∧ ((executeParallel hashFn oracle maxWave block storage).results.map
        (fun r => r.txId)).Perm
      (block.transactions.map (fun tx => tx.id)) := by
  have hids := parallel_results_ids hashFn oracle maxWave block storage hnd
  have hperm := (schedule_partition maxWave block (fun i =>
    ((block.transactions.map (fun tx => (tx.id, oracle tx))).find?
      (fun p => p.1 = i)).map (fun p => p.2)) hnd).1
  have hperm' : ((executeParallel hashFn oracle maxWave block
      storage).results.map (fun r => r.txId)).Perm
      (block.transactions.map (fun tx => tx.id)) := by
    rw [hids]
    exact hperm
  constructor
  · have hlen := hperm'.length_eq
    simpa using hlen
  · exact hperm'

/-- Witness for C4's amended theorem at a concrete block. -/
theorem claim_C4_witness :
    (executeParallel zeroHash keepAll 10000 B1 []).results.length
      = B1.transactions.length :=
  (claim_C4 zeroHash keepAll 10000 B1 [] (by decide)).1

/-- Claim C5: the oracle's estimate is claimed to contain the declared
`tx.reads`/`tx.writes`, the access list, and the scanned `SLoad`/`SStore`
keys.  The crate's `HeuristicOracle` (src/src/scheduler/access_oracle.rs)
has the declared-set lines commented out and drops each remaining key when
its RNG sample misses: on a transaction that only declares `reads = [K1]`,
`writes = [K2]`, the estimate is empty for EVERY draw sequence, while the
repository's vendored copy of the same function returns exactly the
declared sets. -/
theorem claim_C5 :
    (∀ (draw : Nat → Bool) (i : Nat),
        (rngEstimate draw i txD).1.reads = []
        ∧ (rngEstimate draw i txD).1.writes = [])
    ∧ txD.reads = [K1] ∧ txD.writes = [K2]
    ∧ (pevmEstimate [] txD).reads = [K1]
    ∧ (pevmEstimate [] txD).writes = [K2] :=
  ⟨fun _ _ => ⟨rfl, rfl⟩, rfl, rfl, by decide, by decide⟩

/-- Claim C6: estimation is claimed to be pure and deterministic given the
transaction.  The crate's oracle consumes a mutex-guarded RNG that advances
on every call: when the first threshold draw passes and the second misses,
two successive calls on the same one-op transaction return different
access sets. -/
theorem claim_C6 :
    (rngEstimate sDraw 0 txE).1
      ≠ (rngEstimate sDraw (rngEstimate sDraw 0 txE).2 txE).1 := by decide

/-- Claim C7: for every block and every estimate table, the waves returned
by `MIScheduler::schedule` partition the block's (unique) transaction ids —
the concatenation of the waves is a permutation of the id list — and each
wave is sorted ascending. -/
theorem claim_C7 (maxWave : Nat) (block : Block)
    (est : Nat → Option AccessSets)
    (hnd : (block.transactions.map (fun tx => tx.id)).Nodup) :
    ((schedule maxWave block est).flatten).Perm
      (block.transactions.map (fun tx => tx.id))
    ∧ ∀ w ∈ schedule maxWave block est, w.Sorted (· ≤ ·) :=
  schedule_partition maxWave block est hnd

/-- Witness for C7 at a concrete block and estimate table. -/
theorem claim_C7_witness :
    ((schedule 10000 B1 (fun _ => some AccessSets.empty)).flatten).Perm
      (B1.transactions.map (fun tx => tx.id))
    ∧ ∀ w ∈ schedule 10000 B1 (fun _ => some AccessSets.empty),
        w.Sorted (· ≤ ·) :=
  claim_C7 10000 B1 (fun _ => some AccessSets.empty) (by decide)

/-- Claim C8: for every (symmetric, as `ConflictGraph::add_edge`
guarantees) neighbour map, every available set and every `max_wave_size`,
`find_mis` returns a set that is independent (no member is a neighbour of
another), contained in the available set, and of size at most
`max_wave_size`. -/
theorem claim_C8 (nbrs : Nat → List Nat) (available : List Nat)
    (maxWave : Nat) (hsym : ∀ u v, u ∈ nbrs v → v ∈ nbrs u) :
    (∀ u ∈ findMis nbrs available maxWave,
        ∀ v ∈ findMis nbrs available maxWave, u ≠ v → v ∉ nbrs u)
    ∧ (∀ x ∈ findMis nbrs available maxWave, x ∈ available)
    ∧ (findMis nbrs available maxWave).length ≤ maxWave :=
  ⟨findMisAux_indep nbrs maxWave hsym available.length available []
      (by simp) (by simp),
    findMis_sub nbrs available maxWave,
    findMisAux_length nbrs maxWave available.length available []
      (Nat.zero_le _)⟩

/-- Witness for C8 on a concrete two-vertex graph with one edge. -/
theorem claim_C8_witness :
    (∀ u ∈ findMis (fun n => if n = 0 then [1] else if n = 1 then [0] else [])
        [0, 1, 2] 10,
      ∀ v ∈ findMis (fun n => if n = 0 then [1] else if n = 1 then [0] else [])
        [0, 1, 2] 10,
      u ≠ v →
        v ∉ (fun n => if n = 0 then [1] else if n = 1 then [0] else []) u)
    ∧ (∀ x ∈ findMis (fun n => if n = 0 then [1] else if n = 1 then [0] else [])
        [0, 1, 2] 10, x ∈ [0, 1, 2])
    ∧ (findMis (fun n => if n = 0 then [1] else if n = 1 then [0] else [])
        [0, 1, 2] 10).length ≤ 10 :=
  claim_C8 (fun n => if n = 0 then [1] else if n = 1 then [0] else [])
    [0, 1, 2] 10
    (by
      intro u v h
      by_cases h0 : v = 0
      · subst h0
        simp at h
        subst h
        decide
      · by_cases h1 : v = 1
        · subst h1
          simp [h0] at h
          subst h
          decide
        · simp [h0, h1] at h)

/-- Claim C9 counterexample: the claim says no storage write of a failed
transaction reaches the committed state.  In `B9` the transaction's
`SStore(K1, 7)` succeeds and the following `Add` underflows the stack; the
result is a failure, yet `K1 = 7` remains in the final serial storage —
micro-op writes are applied eagerly and never rolled back. -/
theorem claim_C9_counterexample :
    ((executeSerial zeroHash B9 []).2.1.map (fun r => r.success) = [false])
    ∧ ((executeSerial zeroHash B9 []).2.1.map (fun r => r.error)
        = [some "Stack underflow in ADD"])
    ∧ storeGet (executeSerial zeroHash B9 []).1 K1 = u256FromU64 7
    ∧ u256FromU64 7 ≠ u256Zero := by decide

/-- Claim C9 as amended: a failed transaction's result records the error
with `success = false`, empty access sets and zero gas, and execution of
the rest of the block continues (one result per transaction); but storage
writes performed by micro-ops before the failure point remain applied. -/
theorem claim_C9 (hashFn : List Nat → List Nat) (block : Block)
    (storage : Store) :
    (executeSerial hashFn block storage).2.1.length
      = block.transactions.length
    ∧ ∀ r ∈ (executeSerial hashFn block storage).2.1,
        r.success = false →
          r.error.isSome = true ∧ r.accessSets = AccessSets.empty
          ∧ r.gasUsed = 0 := by
  have h := serialFold_results hashFn block.transactions (Ctx.new storage, [], 0)
  constructor
  · simpa [executeSerial] using h.1
  · intro r hr hf
    have hr' : r ∈ (block.transactions.foldl (serialStep hashFn)
        (Ctx.new storage, [], 0)).2.1 := by
      simpa [executeSerial] using hr
    rcases h.2 r hr' with h1 | ⟨tx, ctx, rfl⟩
    · cases h1
    · exact executeTransaction_failure hashFn tx ctx hf

/-- Witness for C9's amended theorem at a concrete block. -/
theorem claim_C9_witness :
    (executeSerial zeroHash B9 []).2.1.length = B9.transactions.length :=
  (claim_C9 zeroHash B9 []).1

/-- Claim C10: `U256` arithmetic on 32-byte big-endian arrays is exact
modular arithmetic — `add` and `sub` compute the sum and difference modulo
`2 ^ 256` (and return well-formed byte arrays), and `checked_add` returns
`some` of the exact sum iff it does not overflow. -/
theorem claim_C10 (a b : List Nat) (ha : a.length = 32) (hb : b.length = 32)
    (hA : ∀ d ∈ a, d < 256) (hB : ∀ d ∈ b, d < 256) :
    valBE (u256Add a b) = (valBE a + valBE b) % 2 ^ 256
    ∧ (u256Add a b).length = 32
    ∧ (∀ d ∈ u256Add a b, d < 256)
    ∧ (valBE (u256Sub a b) : ℤ)
      = ((valBE a : ℤ) - (valBE b : ℤ)) % 2 ^ 256
    ∧ u256CheckedAdd a b
      = if valBE a + valBE b < 2 ^ 256 then some (u256Add a b) else none :=
  ⟨valBE_u256Add a b ha hb hA hB,
    (u256Add_wellFormed a b ha hb).1,
    (u256Add_wellFormed a b ha hb).2,
    valBE_u256Sub a b ha hb hA hB,
    u256CheckedAdd_spec a b ha hb hA hB⟩

/-- Witness for C10 at concrete operands. -/
theorem claim_C10_witness :
    valBE (u256Add (u256FromU64 3) (u256FromU64 4))
      = (valBE (u256FromU64 3) + valBE (u256FromU64 4)) % 2 ^ 256 :=
  (claim_C10 (u256FromU64 3) (u256FromU64 4) (by decide) (by decide)
    (by decide) (by decide)).1

end PEVM
